import Mathlib

/-!
# Verification of the nidhogg taint reconciliation core

This file embeds the taint reconciliation algorithm of the nidhogg
controller (`pkg/nidhogg/handler.go`, final variant) in Lean and proves
properties of it.  Pure Go functions become Lean functions; the
Kubernetes client calls (`List`, pod lookup) are modelled as explicit
function parameters returning `Except`; Go `nil` maps and `nil` pointers
become `Option`.  The iteration order of the Go map `taintsToRemove` is
unspecified in Go; the model fixes the insertion (first occurrence)
order, which the proved properties do not depend on.
-/

/-- One entry of a node's taint collection (`corev1.Taint`): key, value
and effect strings. -/
structure Taint where
  key : String
  value : String
  effect : String
deriving DecidableEq, Repr

/-- One container status of a pod (`corev1.ContainerStatus`), reduced to
the single field the program reads. -/
structure ContainerStatus where
  ready : Bool
deriving DecidableEq, Repr

/-- An owner reference of a pod (`metav1.OwnerReference`), reduced to the
fields relevant here: the program reads only `Name`; `kind` is carried to
state that it is never consulted. -/
structure OwnerReference where
  kind : String
  name : String
deriving DecidableEq, Repr

/-- A pod (`corev1.Pod`), reduced to the fields the handler reads:
`Spec.NodeName`, `OwnerReferences`, `Status.ContainerStatuses`. -/
structure Pod where
  nodeName : String
  ownerReferences : List OwnerReference
  containerStatuses : List ContainerStatus
deriving DecidableEq, Repr

/-- A configured watch (`Daemonset` in the Go config): name and
namespace of a daemonset. -/
structure Daemonset where
  name : String
  «namespace» : String
deriving DecidableEq, Repr

/-- A node (`corev1.Node`), reduced to the fields the handler reads or
writes: name, labels, annotations (a Go map that may be `nil`, hence
`Option`), and the taint collection. -/
structure Node where
  name : String
  labels : List (String × String)
  annotations : Option (List (String × String))
  taints : List Taint
deriving DecidableEq, Repr

/-- The change record produced by one calculation (`taintChanges`). -/
structure TaintChanges where
  taintsAdded : List String
  taintsRemoved : List String
deriving DecidableEq, Repr

/-- Models Go `strings.HasPrefix s pre` on the character sequences of
the two strings. -/
def strStartsWith (s pre : String) : Bool :=
  pre.data.isPrefixOf s.data

/-- `const taintKey = "nidhogg.uswitch.com"`. -/
def taintKey : String := "nidhogg.uswitch.com"

/-- `annotationFirstTimeReady = taintKey + "/first-time-ready"`. -/
def annotationFirstTimeReady : String := taintKey ++ "/first-time-ready"

/-- The canonical taint key of a watch:
`fmt.Sprintf("%s/%s.%s", taintKey, daemonset.Namespace, daemonset.Name)`. -/
def dsTaint (ds : Daemonset) : String :=
  taintKey ++ "/" ++ ds.«namespace» ++ "." ++ ds.name

/-- `podReady`: false as soon as one container status is not ready, true
otherwise (in particular true when no statuses are reported). -/
def podReady (pod : Pod) : Bool :=
  pod.containerStatuses.all (fun status => status.ready)

/-- The taint appended by `addTaint`: given key, zero value, effect
`NoSchedule`. -/
def newTaint (taintName : String) : Taint :=
  { key := taintName, value := "", effect := "NoSchedule" }

/-- `addTaint`: append a new managed taint. -/
def addTaint (taints : List Taint) (taintName : String) : List Taint :=
  taints ++ [newTaint taintName]

/-- `removeTaint`: drop every taint whose key equals `taintName`,
keeping the rest in order (Go returns `nil` for the empty result, which
coincides with `[]` here). -/
def removeTaint (taints : List Taint) (taintName : String) : List Taint :=
  taints.filter (fun taint => !(taint.key == taintName))

/-- Insertion into the model of the Go set `map[string]struct{}`:
append the key unless already present. -/
def insertKey (s : List String) (k : String) : List String :=
  if s.contains k then s else s ++ [k]

/-- Deletion from the set model (`delete(taintsToRemove, taint)`). -/
def eraseKey : List String → String → List String
  | [], _ => []
  | k :: rest, k' => if k == k' then eraseKey rest k' else k :: eraseKey rest k'

/-- First loop of `caclulateTaints`: collect into `taintsToRemove` the
key of every current taint carrying the reserved prefix. -/
def collectManaged (s : List String) : List Taint → List String
  | [] => s
  | t :: rest =>
      collectManaged (if strStartsWith t.key taintKey then insertKey s t.key else s) rest

/-- The initial `taintsToRemove` set for a taint collection. -/
def managedKeySet (taints : List Taint) : List String :=
  collectManaged [] taints

/-- `pod != nil && podReady(pod)` on the looked-up optional pod. -/
def readyVal : Option Pod → Bool
  | some pod => podReady pod
  | none => false

/-- The daemonset loop of `caclulateTaints`, threading the node's taint
collection, the `taintsToRemove` set and the `taintsAdded` record. -/
def calcLoop (f : Daemonset → Except String (Option Pod)) :
    List Daemonset → List Taint → List String → List String →
    Except String (List Taint × List String × List String)
  | [], taints, toRemove, added => .ok (taints, toRemove, added)
  | ds :: rest, taints, toRemove, added =>
    match f ds with
    | .error e => .error ("error fetching pods: " ++ e)
    | .ok podOpt =>
      if readyVal podOpt then
        calcLoop f rest taints toRemove added
      else if toRemove.contains (dsTaint ds) then
        calcLoop f rest taints (eraseKey toRemove (dsTaint ds)) added
      else
        calcLoop f rest (addTaint taints (dsTaint ds)) toRemove (added ++ [dsTaint ds])

/-- Final loop of `caclulateTaints`: remove every key still scheduled
for removal. -/
def removeAll (taints : List Taint) : List String → List Taint
  | [] => taints
  | k :: rest => removeAll (removeTaint taints k) rest

/-- `caclulateTaints`: compute the node copy with its new taint
collection and the change record, or an error if a pod lookup fails.
`lookup nodeName ds` models `h.getDaemonsetPod(instance.Name, daemonset)`. -/
def calculateTaints (lookup : String → Daemonset → Except String (Option Pod))
    (dss : List Daemonset) (node : Node) :
    Except String (Node × TaintChanges) :=
  match calcLoop (lookup node.name) dss node.taints (managedKeySet node.taints) [] with
  | .error e => .error e
  | .ok (taints, toRemove, added) =>
      .ok ({ node with taints := removeAll taints toRemove },
           { taintsAdded := added, taintsRemoved := toRemove })

/-- Inner loop of `getDaemonsetPod` over one pod's owner references. -/
def ownerMatch (nodeName dsName : String) (pod : Pod) : List OwnerReference → Bool
  | [] => false
  | owner :: rest =>
    if owner.name == dsName then
      if pod.nodeName == nodeName then true
      else ownerMatch nodeName dsName pod rest
    else ownerMatch nodeName dsName pod rest

/-- Outer loop of `getDaemonsetPod` over the listed pods: first pod with
an owner reference named after the daemonset and scheduled on the node. -/
def findDaemonsetPod (nodeName dsName : String) : List Pod → Option Pod
  | [] => none
  | pod :: rest =>
    if ownerMatch nodeName dsName pod pod.ownerReferences then some pod
    else findDaemonsetPod nodeName dsName rest

/-- `getDaemonsetPod`: list the pods of the watch's namespace (modelled
by `listPods`), then scan them; no match is `.ok none`, not an error. -/
def getDaemonsetPod (listPods : String → Except String (List Pod))
    (nodeName : String) (ds : Daemonset) : Except String (Option Pod) :=
  match listPods ds.«namespace» with
  | .error e => .error e
  | .ok pods => .ok (findDaemonsetPod nodeName ds.name pods)

/-- Lookup in the annotations map of a node (`nil` map has no entries). -/
def annLookup (node : Node) (k : String) : Option String :=
  match node.annotations with
  | none => none
  | some anns => anns.lookup k

/-- The `taintLess` loop of `HandleNode`: true when no taint of the
computed node carries the reserved prefix. -/
def nodeTaintLess (node : Node) : Bool :=
  node.taints.all (fun taint => !(strStartsWith taint.key taintKey))

/-- The first-time-ready block of `HandleNode`: if the computed node
carries no taint with the reserved prefix, set the milestone annotation
to `now` unless it already exists; otherwise leave annotations alone. -/
def applyMilestone (now : String) (node : Node) : Node :=
  if nodeTaintLess node then
    match node.annotations with
    | none => { node with annotations := some [(annotationFirstTimeReady, now)] }
    | some anns =>
      if (anns.lookup annotationFirstTimeReady).isNone then
        { node with annotations := some (anns ++ [(annotationFirstTimeReady, now)]) }
      else node
  else node

/-- `HandleNode`: selector check, taint calculation, milestone
annotation, then update only when the node changed.  The result is the
node to persist (`some`), `none` when nothing is written, or the
calculation error. -/
def HandleNode (selMatches : List (String × String) → Bool)
    (lookup : String → Daemonset → Except String (Option Pod))
    (dss : List Daemonset) (now : String) (node : Node) :
    Except String (Option Node) :=
  if !(selMatches node.labels) then .ok none
  else
    match calculateTaints lookup dss node with
    | .error e => .error ("error caluclating taints for node: " ++ e)
    | .ok (nodeCopy, _) =>
      let nodeCopy2 := applyMilestone now nodeCopy
      if nodeCopy2 = node then .ok none else .ok (some nodeCopy2)

/-- The foreign (non-managed) subsequence of a taint collection. -/
def foreignOf (taints : List Taint) : List Taint :=
  taints.filter (fun taint => !(strStartsWith taint.key taintKey))

/-- The managed subsequence of a taint collection. -/
def managedOf (taints : List Taint) : List Taint :=
  taints.filter (fun taint => strStartsWith taint.key taintKey)

/-- Does some taint of the collection carry this key? -/
def hasKey (taints : List Taint) (k : String) : Bool :=
  taints.any (fun taint => taint.key == k)

/-! ## Basic lemmas about the string and key-set helpers -/

theorem strStartsWith_self_append (a b : String) : strStartsWith (a ++ b) a = true := by
  simp only [strStartsWith, String.data_append, List.isPrefixOf_iff_prefix]
  exact List.prefix_append _ _

theorem strStartsWith_extend {s : String} (t : String)
    (h : strStartsWith s a = true) : strStartsWith (s ++ t) a = true := by
  simp only [strStartsWith, String.data_append, List.isPrefixOf_iff_prefix] at h ⊢
  exact h.trans (List.prefix_append _ _)

theorem dsTaint_startsWith (ds : Daemonset) :
    strStartsWith (dsTaint ds) taintKey = true := by
  unfold dsTaint
  exact strStartsWith_extend _ (strStartsWith_extend _ (strStartsWith_extend _
    (strStartsWith_self_append taintKey "/")))

theorem contains_iff_mem (s : List String) (k : String) :
    s.contains k = true ↔ k ∈ s := List.elem_iff

theorem mem_insertKey {s : List String} {k k' : String} :
    k ∈ insertKey s k' ↔ k ∈ s ∨ k = k' := by
  unfold insertKey
  by_cases h : k' ∈ s
  · rw [if_pos ((contains_iff_mem s k').mpr h)]
    constructor
    · exact Or.inl
    · rintro (hk | rfl)
      · exact hk
      · exact h
  · rw [if_neg (fun hc => h ((contains_iff_mem s k').mp hc))]
    simp [List.mem_append]

theorem nodup_insertKey {s : List String} (k : String) (h : s.Nodup) :
    (insertKey s k).Nodup := by
  unfold insertKey
  by_cases hm : k ∈ s
  · rw [if_pos ((contains_iff_mem s k).mpr hm)]
    exact h
  · rw [if_neg (fun hc => hm ((contains_iff_mem s k).mp hc))]
    exact h.append (List.nodup_singleton k) (by
      intro a ha hb
      rw [List.mem_singleton] at hb
      exact hm (hb ▸ ha))

theorem eraseKey_eq_filter (s : List String) (k' : String) :
    eraseKey s k' = s.filter (fun k => !(k == k')) := by
  induction s with
  | nil => rfl
  | cons a rest ih =>
    unfold eraseKey
    by_cases h : a == k'
    · rw [if_pos h, ih, List.filter_cons_of_neg (by simp [h])]
    · rw [if_neg h, ih, List.filter_cons_of_pos (by simp_all)]

theorem mem_eraseKey {s : List String} {k k' : String} :
    k ∈ eraseKey s k' ↔ k ∈ s ∧ k ≠ k' := by
  rw [eraseKey_eq_filter, List.mem_filter]
  simp

theorem eraseKey_subset (s : List String) (k' : String) : eraseKey s k' ⊆ s := by
  rw [eraseKey_eq_filter]
  exact (List.filter_sublist s).subset

theorem nodup_eraseKey {s : List String} (k' : String) (h : s.Nodup) :
    (eraseKey s k').Nodup := by
  rw [eraseKey_eq_filter]
  exact ((List.filter_sublist s).nodup h)

theorem eraseKey_of_not_mem {s : List String} {k' : String} (h : k' ∉ s) :
    eraseKey s k' = s := by
  rw [eraseKey_eq_filter]
  apply List.filter_eq_self.mpr
  intro a ha
  simp only [Bool.not_eq_true']
  exact beq_false_of_ne (fun hek => h (hek ▸ ha))

/-! ## `hasKey` basics -/

theorem hasKey_nil (k : String) : hasKey [] k = false := rfl

theorem hasKey_cons (t : Taint) (ts : List Taint) (k : String) :
    hasKey (t :: ts) k = ((t.key == k) || hasKey ts k) := by
  simp [hasKey]

theorem hasKey_iff {ts : List Taint} {k : String} :
    hasKey ts k = true ↔ ∃ t ∈ ts, t.key = k := by
  simp [hasKey]

theorem hasKey_append {ts us : List Taint} {k : String} :
    hasKey (ts ++ us) k = (hasKey ts k || hasKey us k) := by
  simp [hasKey]

theorem contains_cons (k k' : String) (ks : List String) :
    (k' :: ks).contains k = ((k == k') || ks.contains k) := by
  rcases h : k == k' with _ | _ <;> simp [List.contains, List.elem, h]

/-! ## The initial pending-removal set -/

theorem mem_collectManaged {k : String} {ts : List Taint} {s : List String} :
    k ∈ collectManaged s ts ↔
      k ∈ s ∨ (strStartsWith k taintKey = true ∧ hasKey ts k = true) := by
  induction ts generalizing s with
  | nil => simp [collectManaged, hasKey]
  | cons t rest ih =>
    unfold collectManaged
    rw [ih, hasKey_cons]
    by_cases hek : t.key = k
    · subst hek
      by_cases hp : strStartsWith t.key taintKey = true
      · rw [if_pos hp]
        simp [mem_insertKey, hp]
      · rw [if_neg hp]
        simp [hp]
    · have hek' : (t.key == k) = false := beq_false_of_ne hek
      rw [hek']
      by_cases hp : strStartsWith t.key taintKey = true
      · rw [if_pos hp]
        simp only [mem_insertKey, Bool.false_or]
        constructor
        · rintro ((hs | rfl) | hr)
          · exact Or.inl hs
          · exact absurd rfl hek
          · exact Or.inr hr
        · rintro (hs | hr)
          · exact Or.inl (Or.inl hs)
          · exact Or.inr hr
      · rw [if_neg hp]
        simp

theorem nodup_collectManaged {ts : List Taint} {s : List String} (h : s.Nodup) :
    (collectManaged s ts).Nodup := by
  induction ts generalizing s with
  | nil => exact h
  | cons t rest ih =>
    unfold collectManaged
    by_cases hp : strStartsWith t.key taintKey = true
    · rw [if_pos hp]; exact ih (nodup_insertKey _ h)
    · rw [if_neg hp]; exact ih h

theorem mem_managedKeySet {k : String} {ts : List Taint} :
    k ∈ managedKeySet ts ↔ strStartsWith k taintKey = true ∧ hasKey ts k = true := by
  unfold managedKeySet
  rw [mem_collectManaged]
  simp

theorem nodup_managedKeySet (ts : List Taint) : (managedKeySet ts).Nodup :=
  nodup_collectManaged List.nodup_nil

/-! ## The removal phase -/

theorem removeAll_eq_filter (ks : List String) (ts : List Taint) :
    removeAll ts ks = ts.filter (fun t => !(ks.contains t.key)) := by
  induction ks generalizing ts with
  | nil =>
    simp only [removeAll]
    exact (List.filter_eq_self.mpr (by intro a _; rfl)).symm
  | cons k rest ih =>
    simp only [removeAll, removeTaint, ih, List.filter_filter]
    apply List.filter_congr
    intro t _
    rw [contains_cons]
    rcases hei : t.key == k with _ | _ <;> simp [hei]

theorem hasKey_removeAll {ts : List Taint} {ks : List String} {k : String} :
    hasKey (removeAll ts ks) k = (hasKey ts k && !(ks.contains k)) := by
  rw [removeAll_eq_filter]
  rcases hk : hasKey ts k with _ | _
  · simp only [Bool.false_and]
    rw [hasKey] at hk ⊢
    simp only [List.any_eq_false] at hk ⊢
    intro t htm
    exact hk t (List.mem_filter.mp htm).1
  · rw [hasKey, List.any_eq_true] at hk
    obtain ⟨t, htm, hte⟩ := hk
    have hkk : t.key = k := by simpa using hte
    rcases hc : ks.contains k with _ | _
    · simp only [Bool.not_false, Bool.true_and]
      rw [hasKey, List.any_eq_true]
      exact ⟨t, List.mem_filter.mpr ⟨htm, by rw [hkk, hc]; rfl⟩, hte⟩
    · simp only [Bool.not_true, Bool.and_false]
      rw [hasKey]
      simp only [List.any_eq_false]
      intro u hum hue
      have huk : u.key = k := by simpa using hue
      have h2 := (List.mem_filter.mp hum).2
      rw [huk, hc] at h2
      simp at h2

/-! ## Characterizing the daemonset loop

`dsNotReadyB f ds` is the branch condition of the loop for a watch whose
lookup succeeded: pod missing or not ready.  `keepKeysRec` and
`newKeysRec` replay, respectively, the evolution of the pending-removal
set and the sequence of added keys. -/

def dsNotReadyB (f : Daemonset → Except String (Option Pod)) (ds : Daemonset) : Bool :=
  match f ds with
  | .ok v => !readyVal v
  | .error _ => false

def keepKeysRec (f : Daemonset → Except String (Option Pod)) :
    List Daemonset → List String → List String
  | [], r => r
  | ds :: rest, r =>
      keepKeysRec f rest (if dsNotReadyB f ds then eraseKey r (dsTaint ds) else r)

def newKeysRec (f : Daemonset → Except String (Option Pod)) :
    List Daemonset → List String → List String
  | [], _ => []
  | ds :: rest, r =>
      if dsNotReadyB f ds then
        if r.contains (dsTaint ds) then newKeysRec f rest (eraseKey r (dsTaint ds))
        else dsTaint ds :: newKeysRec f rest r
      else newKeysRec f rest r

theorem calcLoop_cons_err {f : Daemonset → Except String (Option Pod)}
    {d : Daemonset} {e : String} (rest : List Daemonset)
    (ts : List Taint) (r a : List String) (hv : f d = .error e) :
    calcLoop f (d :: rest) ts r a = .error ("error fetching pods: " ++ e) := by
  rw [calcLoop, hv]

theorem calcLoop_cons_ok {f : Daemonset → Except String (Option Pod)}
    {d : Daemonset} {v : Option Pod} (rest : List Daemonset)
    (ts : List Taint) (r a : List String) (hv : f d = .ok v) :
    calcLoop f (d :: rest) ts r a =
      if readyVal v then calcLoop f rest ts r a
      else if r.contains (dsTaint d) then calcLoop f rest ts (eraseKey r (dsTaint d)) a
      else calcLoop f rest (addTaint ts (dsTaint d)) r (a ++ [dsTaint d]) := by
  rw [calcLoop, hv]

theorem dsNotReadyB_of_ok {f : Daemonset → Except String (Option Pod)}
    {d : Daemonset} {v : Option Pod} (hv : f d = .ok v) :
    dsNotReadyB f d = !readyVal v := by
  rw [dsNotReadyB, hv]

theorem calcLoop_ok_lookup {f : Daemonset → Except String (Option Pod)}
    {ws : List Daemonset} {ts : List Taint} {r a : List String} {res}
    (h : calcLoop f ws ts r a = .ok res) :
    ∀ ds ∈ ws, ∃ v, f ds = .ok v := by
  induction ws generalizing ts r a with
  | nil => intro ds hm; exact absurd hm (List.not_mem_nil ds)
  | cons d rest ih =>
    intro ds hm
    rcases hf : f d with e | v
    · rw [calcLoop_cons_err rest ts r a hf] at h
      exact absurd h (by simp)
    · rw [calcLoop_cons_ok rest ts r a hf] at h
      rcases List.mem_cons.mp hm with rfl | hm'
      · exact ⟨v, hf⟩
      · by_cases hready : readyVal v = true
        · rw [if_pos hready] at h; exact ih h ds hm'
        · rw [if_neg hready] at h
          by_cases hc : r.contains (dsTaint d) = true
          · rw [if_pos hc] at h; exact ih h ds hm'
          · rw [if_neg hc] at h; exact ih h ds hm'

theorem calcLoop_ok_of_lookup {f : Daemonset → Except String (Option Pod)}
    {ws : List Daemonset} (ts : List Taint) (r a : List String)
    (h : ∀ ds ∈ ws, ∃ v, f ds = .ok v) :
    ∃ res, calcLoop f ws ts r a = .ok res := by
  induction ws generalizing ts r a with
  | nil => exact ⟨(ts, r, a), rfl⟩
  | cons d rest ih =>
    obtain ⟨v, hv⟩ := h d (List.mem_cons_self d rest)
    have hrest : ∀ ds ∈ rest, ∃ v, f ds = .ok v :=
      fun ds hm => h ds (List.mem_cons_of_mem d hm)
    rw [calcLoop_cons_ok rest ts r a hv]
    by_cases hready : readyVal v = true
    · rw [if_pos hready]; exact ih _ _ _ hrest
    · rw [if_neg hready]
      by_cases hc : r.contains (dsTaint d) = true
      · rw [if_pos hc]; exact ih _ _ _ hrest
      · rw [if_neg hc]; exact ih _ _ _ hrest

theorem keepKeysRec_cons (f : Daemonset → Except String (Option Pod))
    (d : Daemonset) (rest : List Daemonset) (r : List String) :
    keepKeysRec f (d :: rest) r =
      keepKeysRec f rest (if dsNotReadyB f d then eraseKey r (dsTaint d) else r) := rfl

theorem newKeysRec_cons (f : Daemonset → Except String (Option Pod))
    (d : Daemonset) (rest : List Daemonset) (r : List String) :
    newKeysRec f (d :: rest) r =
      if dsNotReadyB f d then
        if r.contains (dsTaint d) then newKeysRec f rest (eraseKey r (dsTaint d))
        else dsTaint d :: newKeysRec f rest r
      else newKeysRec f rest r := rfl

theorem calcLoop_characterize {f : Daemonset → Except String (Option Pod)}
    {ws : List Daemonset} {ts ts' : List Taint} {r a r' a' : List String}
    (h : calcLoop f ws ts r a = .ok (ts', r', a')) :
    ts' = ts ++ (newKeysRec f ws r).map newTaint ∧
      r' = keepKeysRec f ws r ∧ a' = a ++ newKeysRec f ws r := by
  induction ws generalizing ts r a with
  | nil =>
    rw [calcLoop] at h
    injection h with h
    injection h with h1 h
    injection h with h2 h3
    subst h1; subst h2; subst h3
    simp [newKeysRec, keepKeysRec]
  | cons d rest ih =>
    rcases hf : f d with e | v
    · rw [calcLoop_cons_err rest ts r a hf] at h
      exact absurd h (by simp)
    · rw [calcLoop_cons_ok rest ts r a hf] at h
      by_cases hready : readyVal v = true
      · rw [if_pos hready] at h
        have hnr : dsNotReadyB f d = false := by
          rw [dsNotReadyB_of_ok hf, hready]; rfl
        obtain ⟨h1, h2, h3⟩ := ih h
        refine ⟨?_, ?_, ?_⟩
        · rw [h1, newKeysRec_cons, hnr]; simp
        · rw [h2, keepKeysRec_cons, hnr]; simp
        · rw [h3, newKeysRec_cons, hnr]; simp
      · rw [if_neg hready] at h
        have hnr : dsNotReadyB f d = true := by
          rw [dsNotReadyB_of_ok hf]; simp [hready]
        by_cases hc : r.contains (dsTaint d) = true
        · rw [if_pos hc] at h
          obtain ⟨h1, h2, h3⟩ := ih h
          refine ⟨?_, ?_, ?_⟩
          · rw [h1, newKeysRec_cons, hnr, hc]; simp
          · rw [h2, keepKeysRec_cons, hnr]; simp
          · rw [h3, newKeysRec_cons, hnr, hc]; simp
        · rw [if_neg hc] at h
          obtain ⟨h1, h2, h3⟩ := ih h
          have hc' : r.contains (dsTaint d) = false := by
            rcases hx : r.contains (dsTaint d) with _ | _
            · rfl
            · exact absurd hx hc
          have hnm : dsTaint d ∉ r := fun hm => hc ((contains_iff_mem _ _).mpr hm)
          refine ⟨?_, ?_, ?_⟩
          · rw [h1, newKeysRec_cons, hnr, hc']
            simp [addTaint]
          · rw [h2, keepKeysRec_cons, hnr]
            simp [eraseKey_of_not_mem hnm]
          · rw [h3, newKeysRec_cons, hnr, hc']
            simp

/-! ## Membership in the replayed pending-removal set and added keys -/

theorem mem_keepKeysRec {f : Daemonset → Except String (Option Pod)}
    {ws : List Daemonset} {r : List String} {k : String} :
    k ∈ keepKeysRec f ws r ↔
      k ∈ r ∧ ∀ ds ∈ ws, dsTaint ds = k → dsNotReadyB f ds = false := by
  induction ws generalizing r with
  | nil => simp [keepKeysRec]
  | cons d rest ih =>
    rw [keepKeysRec_cons]
    rcases hnr : dsNotReadyB f d with _ | _
    · rw [if_neg (by simp [hnr])]
      rw [ih]
      constructor
      · rintro ⟨hr, hrest⟩
        refine ⟨hr, ?_⟩
        intro ds hm he
        rcases List.mem_cons.mp hm with rfl | hm'
        · exact hnr
        · exact hrest ds hm' he
      · rintro ⟨hr, hall⟩
        exact ⟨hr, fun ds hm he => hall ds (List.mem_cons_of_mem d hm) he⟩
    · rw [if_pos (by simp [hnr])]
      rw [ih]
      constructor
      · rintro ⟨hr, hrest⟩
        obtain ⟨hr', hne⟩ := mem_eraseKey.mp hr
        refine ⟨hr', ?_⟩
        intro ds hm he
        rcases List.mem_cons.mp hm with rfl | hm'
        · exact absurd he.symm hne
        · exact hrest ds hm' he
      · rintro ⟨hr, hall⟩
        have hne : k ≠ dsTaint d := by
          intro he
          have := hall d (List.mem_cons_self d rest) he.symm
          rw [this] at hnr
          exact absurd hnr (by simp)
        exact ⟨mem_eraseKey.mpr ⟨hr, hne⟩,
          fun ds hm he => hall ds (List.mem_cons_of_mem d hm) he⟩

theorem keepKeysRec_subset {f : Daemonset → Except String (Option Pod)}
    {ws : List Daemonset} {r : List String} :
    keepKeysRec f ws r ⊆ r :=
  fun _ hm => (mem_keepKeysRec.mp hm).1

theorem nodup_keepKeysRec {f : Daemonset → Except String (Option Pod)}
    (ws : List Daemonset) {r : List String} (h : r.Nodup) :
    (keepKeysRec f ws r).Nodup := by
  induction ws generalizing r with
  | nil => exact h
  | cons d rest ih =>
    rw [keepKeysRec_cons]
    rcases hnr : dsNotReadyB f d with _ | _
    · rw [if_neg (by simp)]; exact ih h
    · rw [if_pos rfl]; exact ih (nodup_eraseKey _ h)

theorem newKeysRec_witness {f : Daemonset → Except String (Option Pod)}
    {ws : List Daemonset} {r : List String} {k : String}
    (h : k ∈ newKeysRec f ws r) :
    ∃ ds ∈ ws, dsTaint ds = k ∧ dsNotReadyB f ds = true := by
  induction ws generalizing r with
  | nil => exact absurd h (by simp [newKeysRec])
  | cons d rest ih =>
    rw [newKeysRec_cons] at h
    rcases hnr : dsNotReadyB f d with _ | _
    · rw [hnr, if_neg (by simp)] at h
      obtain ⟨ds, hm, he, hn⟩ := ih h
      exact ⟨ds, List.mem_cons_of_mem d hm, he, hn⟩
    · rw [hnr, if_pos rfl] at h
      by_cases hc : r.contains (dsTaint d) = true
      · rw [if_pos hc] at h
        obtain ⟨ds, hm, he, hn⟩ := ih h
        exact ⟨ds, List.mem_cons_of_mem d hm, he, hn⟩
      · rw [if_neg hc] at h
        rcases List.mem_cons.mp h with rfl | h'
        · exact ⟨d, List.mem_cons_self d rest, rfl, hnr⟩
        · obtain ⟨ds, hm, he, hn⟩ := ih h'
          exact ⟨ds, List.mem_cons_of_mem d hm, he, hn⟩

theorem mem_newKeysRec {f : Daemonset → Except String (Option Pod)}
    {ws : List Daemonset} {r : List String} {ds : Daemonset}
    (hnd : (ws.map dsTaint).Nodup) (hm : ds ∈ ws)
    (hnr : dsNotReadyB f ds = true) (hr : dsTaint ds ∉ r) :
    dsTaint ds ∈ newKeysRec f ws r := by
  induction ws generalizing r with
  | nil => exact absurd hm (List.not_mem_nil ds)
  | cons d rest ih =>
    rw [newKeysRec_cons]
    rw [List.map_cons, List.nodup_cons] at hnd
    rcases List.mem_cons.mp hm with rfl | hm'
    · rw [hnr, if_pos rfl,
        if_neg (fun hc => hr ((contains_iff_mem _ _).mp hc))]
      exact List.mem_cons_self _ _
    · have hne : dsTaint d ≠ dsTaint ds :=
        fun he => hnd.1 (he ▸ List.mem_map_of_mem dsTaint hm')
      rcases hnrd : dsNotReadyB f d with _ | _
      · rw [if_neg (by simp)]
        exact ih hnd.2 hm' hr
      · rw [if_pos rfl]
        by_cases hc : r.contains (dsTaint d) = true
        · rw [if_pos hc]
          exact ih hnd.2 hm'
            (fun hmm => hr (mem_eraseKey.mp hmm).1)
        · rw [if_neg hc]
          exact List.mem_cons_of_mem _ (ih hnd.2 hm' hr)

theorem not_mem_newKeysRec {f : Daemonset → Except String (Option Pod)}
    {ws : List Daemonset} {r : List String} {k : String}
    (hnd : (ws.map dsTaint).Nodup) (hr : k ∈ r) :
    k ∉ newKeysRec f ws r := by
  induction ws generalizing r with
  | nil => simp [newKeysRec]
  | cons d rest ih =>
    rw [newKeysRec_cons]
    rw [List.map_cons, List.nodup_cons] at hnd
    rcases hnrd : dsNotReadyB f d with _ | _
    · rw [if_neg (by simp)]
      exact ih hnd.2 hr
    · rw [if_pos rfl]
      by_cases he : dsTaint d = k
      · rw [if_pos ((contains_iff_mem _ _).mpr (he ▸ hr))]
        intro hmem
        obtain ⟨ds, hdm, hdk, _⟩ := newKeysRec_witness hmem
        exact hnd.1 ((hdk.trans he.symm) ▸ List.mem_map_of_mem dsTaint hdm)
      · by_cases hc : r.contains (dsTaint d) = true
        · rw [if_pos hc]
          exact ih hnd.2 (mem_eraseKey.mpr ⟨hr, fun hek => he hek.symm⟩)
        · rw [if_neg hc]
          intro hmem
          rcases List.mem_cons.mp hmem with rfl | hmem'
          · exact he rfl
          · exact ih hnd.2 hr hmem'

theorem newKeysRec_eq_nil {f : Daemonset → Except String (Option Pod)}
    {ws : List Daemonset} {r : List String}
    (hnd : (ws.map dsTaint).Nodup)
    (h : ∀ ds ∈ ws, dsNotReadyB f ds = true → dsTaint ds ∈ r) :
    newKeysRec f ws r = [] := by
  induction ws generalizing r with
  | nil => rfl
  | cons d rest ih =>
    rw [newKeysRec_cons]
    rw [List.map_cons, List.nodup_cons] at hnd
    rcases hnrd : dsNotReadyB f d with _ | _
    · rw [if_neg (by simp)]
      exact ih hnd.2 (fun ds hm hn => h ds (List.mem_cons_of_mem d hm) hn)
    · rw [if_pos rfl]
      have hdr : dsTaint d ∈ r := h d (List.mem_cons_self d rest) hnrd
      rw [if_pos ((contains_iff_mem _ _).mpr hdr)]
      apply ih hnd.2
      intro ds hm hn
      have hne : dsTaint ds ≠ dsTaint d :=
        fun he => hnd.1 (he ▸ List.mem_map_of_mem dsTaint hm)
      exact mem_eraseKey.mpr ⟨h ds (List.mem_cons_of_mem d hm) hn, hne⟩

theorem keepKeysRec_eq_nil {f : Daemonset → Except String (Option Pod)}
    {ws : List Daemonset} {r : List String}
    (h : ∀ k ∈ r, ∃ ds ∈ ws, dsTaint ds = k ∧ dsNotReadyB f ds = true) :
    keepKeysRec f ws r = [] := by
  rw [List.eq_nil_iff_forall_not_mem]
  intro k hk
  obtain ⟨hr, hall⟩ := mem_keepKeysRec.mp hk
  obtain ⟨ds, hm, he, hn⟩ := h k hr
  rw [hall ds hm he] at hn
  exact absurd hn (by simp)

theorem nodup_newKeysRec {f : Daemonset → Except String (Option Pod)}
    {ws : List Daemonset} (r : List String)
    (hnd : (ws.map dsTaint).Nodup) :
    (newKeysRec f ws r).Nodup := by
  induction ws generalizing r with
  | nil => exact List.nodup_nil
  | cons d rest ih =>
    rw [newKeysRec_cons]
    rw [List.map_cons, List.nodup_cons] at hnd
    rcases hnrd : dsNotReadyB f d with _ | _
    · rw [if_neg (by simp)]
      exact ih _ hnd.2
    · rw [if_pos rfl]
      by_cases hc : r.contains (dsTaint d) = true
      · rw [if_pos hc]
        exact ih _ hnd.2
      · rw [if_neg hc]
        rw [List.nodup_cons]
        refine ⟨?_, ih _ hnd.2⟩
        intro hmem
        obtain ⟨ds, hdm, hdk, _⟩ := newKeysRec_witness hmem
        exact hnd.1 (hdk ▸ List.mem_map_of_mem dsTaint hdm)

/-! ## Unfolding `calculateTaints` -/

theorem calculateTaints_def_ok {lookup : String → Daemonset → Except String (Option Pod)}
    {dss : List Daemonset} {node : Node} {ts' : List Taint} {r' a' : List String}
    (hcl : calcLoop (lookup node.name) dss node.taints (managedKeySet node.taints) []
      = .ok (ts', r', a')) :
    calculateTaints lookup dss node =
      .ok ({ node with taints := removeAll ts' r' },
           { taintsAdded := a', taintsRemoved := r' }) := by
  rw [calculateTaints, hcl]

theorem calculateTaints_def_err {lookup : String → Daemonset → Except String (Option Pod)}
    {dss : List Daemonset} {node : Node} {e : String}
    (hcl : calcLoop (lookup node.name) dss node.taints (managedKeySet node.taints) []
      = .error e) :
    calculateTaints lookup dss node = .error e := by
  rw [calculateTaints, hcl]

theorem calculateTaints_ok_lookup {lookup : String → Daemonset → Except String (Option Pod)}
    {dss : List Daemonset} {node : Node} {res}
    (h : calculateTaints lookup dss node = .ok res) :
    ∀ ds ∈ dss, ∃ v, lookup node.name ds = .ok v := by
  rcases hcl : calcLoop (lookup node.name) dss node.taints (managedKeySet node.taints) []
    with e | ⟨ts', r', a'⟩
  · rw [calculateTaints_def_err hcl] at h
    exact absurd h (by simp)
  · exact calcLoop_ok_lookup hcl

theorem calculateTaints_spec {lookup : String → Daemonset → Except String (Option Pod)}
    {dss : List Daemonset} {node node' : Node} {ch : TaintChanges}
    (h : calculateTaints lookup dss node = .ok (node', ch)) :
    node'.name = node.name ∧ node'.labels = node.labels ∧
      node'.annotations = node.annotations ∧
      node'.taints =
        removeAll
          (node.taints ++
            (newKeysRec (lookup node.name) dss (managedKeySet node.taints)).map newTaint)
          (keepKeysRec (lookup node.name) dss (managedKeySet node.taints)) ∧
      ch.taintsAdded = newKeysRec (lookup node.name) dss (managedKeySet node.taints) ∧
      ch.taintsRemoved = keepKeysRec (lookup node.name) dss (managedKeySet node.taints) := by
  rcases hcl : calcLoop (lookup node.name) dss node.taints (managedKeySet node.taints) []
    with e | ⟨ts', r', a'⟩
  · rw [calculateTaints_def_err hcl] at h
    exact absurd h (by simp)
  · obtain ⟨h1, h2, h3⟩ := calcLoop_characterize hcl
    rw [calculateTaints_def_ok hcl] at h
    injection h with h
    injection h with hn hc
    subst hn; subst hc
    rw [h1, h2, h3]
    simp

theorem hasKey_map_newTaint {ks : List String} {k : String} :
    hasKey (ks.map newTaint) k = true ↔ k ∈ ks := by
  simp [hasKey, List.any_map, Function.comp, newTaint]

/-! ## Claim C3: the readiness predicate -/

/-- C3 counterexample: the claim states that a pod with an empty
container-status collection is not ready, but `podReady` returns `true`
for a pod reporting zero container statuses. -/
theorem podReady_empty_statuses_cex :
    podReady { nodeName := "node1", ownerReferences := [], containerStatuses := [] } = true :=
  rfl

/-- C3 (amended): `podReady` returns true exactly when every reported
container-ready flag is true; a pod with zero reported container
statuses is vacuously ready (the conjunct requiring at least one status
does not hold of the code). -/
theorem podReady_iff_all_ready (pod : Pod) :
    podReady pod = true ↔ ∀ s ∈ pod.containerStatuses, s.ready = true := by
  simp [podReady]

/-! ## Claim C10: the workload pod locator -/

/-- The pod-level match criterion of `getDaemonsetPod`: some owner
reference carries the daemonset's name and the pod is scheduled on the
node.  Neither the owner's kind nor any namespace field occurs in it. -/
def dsPodMatch (nodeName dsName : String) (pod : Pod) : Bool :=
  pod.ownerReferences.any (fun o => o.name == dsName) && (pod.nodeName == nodeName)

/-- Replace the kind of every owner reference of a pod, leaving all
other fields alone. -/
def rekindPod (g : String → String) (pod : Pod) : Pod :=
  { pod with ownerReferences :=
      pod.ownerReferences.map (fun o => { o with kind := g o.kind }) }

theorem ownerMatch_eq (nodeName dsName : String) (pod : Pod)
    (owners : List OwnerReference) :
    ownerMatch nodeName dsName pod owners =
      (owners.any (fun o => o.name == dsName) && (pod.nodeName == nodeName)) := by
  induction owners with
  | nil => simp [ownerMatch]
  | cons o rest ih =>
    rw [ownerMatch]
    rcases h1 : (o.name == dsName) with _ | _ <;>
      rcases h2 : (pod.nodeName == nodeName) with _ | _ <;>
        simp [h1, h2, ih]

theorem findDaemonsetPod_eq (nodeName dsName : String) (pods : List Pod) :
    findDaemonsetPod nodeName dsName pods =
      pods.find? (dsPodMatch nodeName dsName) := by
  induction pods with
  | nil => rfl
  | cons p rest ih =>
    rw [findDaemonsetPod, ownerMatch_eq, List.find?_cons]
    rcases h : dsPodMatch nodeName dsName p with _ | _
    · have h' : (p.ownerReferences.any (fun o => o.name == dsName)
          && (p.nodeName == nodeName)) = false := h
      rw [h', if_neg (by simp)]
      exact ih
    · have h' : (p.ownerReferences.any (fun o => o.name == dsName)
          && (p.nodeName == nodeName)) = true := h
      rw [h', if_pos rfl]

theorem findDaemonsetPod_rekind (g : String → String) (nodeName dsName : String)
    (pods : List Pod) :
    findDaemonsetPod nodeName dsName (pods.map (rekindPod g)) =
      (findDaemonsetPod nodeName dsName pods).map (rekindPod g) := by
  rw [findDaemonsetPod_eq, findDaemonsetPod_eq, List.find?_map]
  have hp : (dsPodMatch nodeName dsName ∘ rekindPod g) = dsPodMatch nodeName dsName := by
    funext p
    show dsPodMatch nodeName dsName (rekindPod g p) = dsPodMatch nodeName dsName p
    simp only [dsPodMatch, rekindPod, List.any_map]
    rfl
  rw [hp]

theorem getDaemonsetPod_ok {listPods : String → Except String (List Pod)}
    {nodeName : String} {ds : Daemonset} {pods : List Pod}
    (h : listPods ds.«namespace» = .ok pods) :
    getDaemonsetPod listPods nodeName ds =
      .ok (findDaemonsetPod nodeName ds.name pods) := by
  rw [getDaemonsetPod, h]

/-- C10: the locator matches by owner-reference name and scheduled node
only.  Given the listing of the watch's namespace, the result is the
first listed pod satisfying `dsPodMatch` (so any pod matching on owner
name and node makes the locator return a matching pod); owner kinds are
never compared (re-kinding every owner reference commutes with the
scan, which also never reads the watch's namespace field); and when no
pod matches, the locator returns no pod and no error. -/
theorem getDaemonsetPod_spec (listPods : String → Except String (List Pod))
    (nodeName : String) (ds : Daemonset) (pods : List Pod) (g : String → String)
    (h : listPods ds.«namespace» = .ok pods) :
    getDaemonsetPod listPods nodeName ds =
        .ok (pods.find? (dsPodMatch nodeName ds.name)) ∧
      (∀ p ∈ pods, dsPodMatch nodeName ds.name p = true →
        ∃ q ∈ pods, dsPodMatch nodeName ds.name q = true ∧
          getDaemonsetPod listPods nodeName ds = .ok (some q)) ∧
      ((∀ p ∈ pods, dsPodMatch nodeName ds.name p = false) →
        getDaemonsetPod listPods nodeName ds = .ok none) ∧
      findDaemonsetPod nodeName ds.name (pods.map (rekindPod g)) =
        (findDaemonsetPod nodeName ds.name pods).map (rekindPod g) := by
  have h1 : getDaemonsetPod listPods nodeName ds =
      .ok (pods.find? (dsPodMatch nodeName ds.name)) := by
    rw [getDaemonsetPod_ok h, findDaemonsetPod_eq]
  refine ⟨h1, ?_, ?_, findDaemonsetPod_rekind g nodeName ds.name pods⟩
  · intro p hp hmatch
    have hsome : (pods.find? (dsPodMatch nodeName ds.name)).isSome := by
      rw [List.find?_isSome]
      exact ⟨p, hp, hmatch⟩
    obtain ⟨q, hq⟩ := Option.isSome_iff_exists.mp hsome
    exact ⟨q, List.mem_of_find?_eq_some hq, List.find?_some hq, by rw [h1, hq]⟩
  · intro hnone
    rw [h1, List.find?_eq_none.mpr (fun p hp => by rw [hnone p hp]; simp)]

/-- A concrete agent pod for the C10 witness. -/
def w10Pod : Pod :=
  { nodeName := "n1",
    ownerReferences := [{ kind := "DaemonSet", name := "agent" }],
    containerStatuses := [{ ready := true }] }

/-- Witness for C10: on a one-pod listing the locator returns that pod. -/
theorem getDaemonsetPod_spec_witness :
    getDaemonsetPod (fun _ => .ok [w10Pod]) "n1"
        { name := "agent", «namespace» := "kube-system" } = .ok (some w10Pod) := by
  have h := (getDaemonsetPod_spec (fun _ => .ok [w10Pod]) "n1"
    { name := "agent", «namespace» := "kube-system" } [w10Pod] id rfl).1
  rw [h]
  rfl

/-! ## Claim C2: foreign taints are preserved -/

theorem foreignOf_filter_keys {ts : List Taint} {p : Taint → Bool}
    (h : ∀ t ∈ ts, strStartsWith t.key taintKey = false → p t = true) :
    foreignOf (ts.filter p) = foreignOf ts := by
  induction ts with
  | nil => rfl
  | cons t rest ih =>
    have hrest : ∀ u ∈ rest, strStartsWith u.key taintKey = false → p u = true :=
      fun u hu => h u (List.mem_cons_of_mem t hu)
    rcases hf : strStartsWith t.key taintKey with _ | _
    · have hp : p t = true := h t (List.mem_cons_self t rest) hf
      rw [List.filter_cons_of_pos hp]
      unfold foreignOf
      rw [List.filter_cons_of_pos (by simp [hf]), List.filter_cons_of_pos (by simp [hf])]
      exact congrArg (t :: ·) (ih hrest)
    · rcases hp : p t with _ | _
      · rw [List.filter_cons_of_neg (by simp [hp])]
        unfold foreignOf
        rw [List.filter_cons_of_neg (by simp [hf])]
        exact ih hrest
      · rw [List.filter_cons_of_pos hp]
        unfold foreignOf
        rw [List.filter_cons_of_neg (by simp [hf]), List.filter_cons_of_neg (by simp [hf])]
        exact ih hrest

theorem foreignOf_removeAll {ts : List Taint} {ks : List String}
    (h : ∀ k ∈ ks, strStartsWith k taintKey = true) :
    foreignOf (removeAll ts ks) = foreignOf ts := by
  rw [removeAll_eq_filter]
  apply foreignOf_filter_keys
  intro t _ hf
  rcases hc : ks.contains t.key with _ | _
  · rfl
  · have := h t.key ((contains_iff_mem _ _).mp hc)
    rw [this] at hf
    exact absurd hf (by simp)

theorem foreignOf_append (ts us : List Taint) :
    foreignOf (ts ++ us) = foreignOf ts ++ foreignOf us := by
  unfold foreignOf
  exact List.filter_append ts us

theorem foreignOf_map_newTaint {ks : List String}
    (h : ∀ k ∈ ks, strStartsWith k taintKey = true) :
    foreignOf (ks.map newTaint) = [] := by
  unfold foreignOf
  rw [List.filter_eq_nil_iff]
  intro t ht
  obtain ⟨k, hk, rfl⟩ := List.mem_map.mp ht
  simp [newTaint, h k hk]

/-- C2: every calculation preserves the foreign (non reserved-prefix)
subsequence of the node's taints: same elements, same order, hence the
same count, content and relative order; no foreign taint is dropped or
rewritten. -/
theorem foreign_taints_preserved
    {lookup : String → Daemonset → Except String (Option Pod)}
    {dss : List Daemonset} {node node' : Node} {ch : TaintChanges}
    (h : calculateTaints lookup dss node = .ok (node', ch)) :
    foreignOf node'.taints = foreignOf node.taints := by
  obtain ⟨-, -, -, hts, -, -⟩ := calculateTaints_spec h
  rw [hts]
  rw [foreignOf_removeAll
    (fun k hk => (mem_managedKeySet.mp (keepKeysRec_subset hk)).1)]
  rw [foreignOf_append, foreignOf_map_newTaint, List.append_nil]
  intro k hk
  obtain ⟨ds, -, rfl, -⟩ := newKeysRec_witness hk
  exact dsTaint_startsWith ds

/-- Witness for C2 at a concrete node carrying one foreign taint. -/
theorem foreign_taints_preserved_witness :
    foreignOf [Taint.mk "other.co/cordon" "" "NoSchedule",
        Taint.mk "nidhogg.uswitch.com/kube-system.agent" "" "NoSchedule"] =
      foreignOf [Taint.mk "other.co/cordon" "" "NoSchedule"] := by
  have h := @foreign_taints_preserved (fun _ _ => .ok none)
    [{ name := "agent", «namespace» := "kube-system" }]
    { name := "n1", labels := [], annotations := none,
      taints := [Taint.mk "other.co/cordon" "" "NoSchedule"] }
    { name := "n1", labels := [], annotations := none,
      taints := [Taint.mk "other.co/cordon" "" "NoSchedule",
        Taint.mk "nidhogg.uswitch.com/kube-system.agent" "" "NoSchedule"] }
    { taintsAdded := ["nidhogg.uswitch.com/kube-system.agent"], taintsRemoved := [] }
    (by rfl)
  exact h

/-! ## Claim C9: classification is by bare key prefix -/

/-- C9: a taint whose key merely starts with the reserved prefix and
matches no configured watch's canonical key is removed by the
calculation and reported in the removed list, even though the program
never created it. -/
theorem unmatched_managed_key_removed
    {lookup : String → Daemonset → Except String (Option Pod)}
    {dss : List Daemonset} {node node' : Node} {ch : TaintChanges} {t : Taint}
    (hmem : t ∈ node.taints) (hpre : strStartsWith t.key taintKey = true)
    (hnow : ∀ ds ∈ dss, dsTaint ds ≠ t.key)
    (h : calculateTaints lookup dss node = .ok (node', ch)) :
    hasKey node'.taints t.key = false ∧ t.key ∈ ch.taintsRemoved := by
  obtain ⟨-, -, -, hts, -, hrem⟩ := calculateTaints_spec h
  have hr0 : t.key ∈ managedKeySet node.taints :=
    mem_managedKeySet.mpr ⟨hpre, hasKey_iff.mpr ⟨t, hmem, rfl⟩⟩
  have hkeep : t.key ∈ keepKeysRec (lookup node.name) dss (managedKeySet node.taints) :=
    mem_keepKeysRec.mpr ⟨hr0, fun ds hm he => absurd he (hnow ds hm)⟩
  constructor
  · rw [hts, hasKey_removeAll, (contains_iff_mem _ _).mpr hkeep]
    simp
  · rw [hrem]
    exact hkeep

/-- Witness for C9: the key `nidhogg.uswitch.community/x` merely starts
with the reserved prefix, matches no watch, and is removed. -/
theorem unmatched_managed_key_removed_witness :
    hasKey [Taint.mk (dsTaint { name := "agent", «namespace» := "kube-system" }) "" "NoSchedule"]
        "nidhogg.uswitch.community/x" = false ∧
      "nidhogg.uswitch.community/x" ∈ ["nidhogg.uswitch.community/x"] := by
  have h := @unmatched_managed_key_removed
    (fun _ _ => .ok none)
    [{ name := "agent", «namespace» := "kube-system" }]
    { name := "n1", labels := [], annotations := none,
      taints := [Taint.mk "nidhogg.uswitch.community/x" "" "NoSchedule"] }
    { name := "n1", labels := [], annotations := none,
      taints := [Taint.mk (dsTaint { name := "agent", «namespace» := "kube-system" }) "" "NoSchedule"] }
    { taintsAdded := [dsTaint { name := "agent", «namespace» := "kube-system" }],
      taintsRemoved := ["nidhogg.uswitch.community/x"] }
    (Taint.mk "nidhogg.uswitch.community/x" "" "NoSchedule")
    (by decide) (by decide) (by decide) (by rfl)
  exact h

/-! ## Claim C8: a failing lookup aborts the reconciliation -/

theorem calcLoop_error_of_lookup {f : Daemonset → Except String (Option Pod)}
    {ws : List Daemonset} {ds : Daemonset} {e : String}
    (hm : ds ∈ ws) (he : f ds = .error e) (ts : List Taint) (r a : List String) :
    ∃ e', calcLoop f ws ts r a = .error e' := by
  induction ws generalizing ts r a with
  | nil => exact absurd hm (List.not_mem_nil ds)
  | cons d rest ih =>
    rcases hf : f d with e0 | v
    · exact ⟨_, calcLoop_cons_err rest ts r a hf⟩
    · have hm' : ds ∈ rest := by
        rcases List.mem_cons.mp hm with rfl | hm'
        · rw [hf] at he; exact absurd he (by simp)
        · exact hm'
      rw [calcLoop_cons_ok rest ts r a hf]
      by_cases hready : readyVal v = true
      · rw [if_pos hready]; exact ih hm' _ _ _
      · rw [if_neg hready]
        by_cases hc : r.contains (dsTaint d) = true
        · rw [if_pos hc]; exact ih hm' _ _ _
        · rw [if_neg hc]; exact ih hm' _ _ _

theorem HandleNode_err {selMatches : List (String × String) → Bool}
    {lookup : String → Daemonset → Except String (Option Pod)}
    {dss : List Daemonset} {now : String} {node : Node} {e : String}
    (hsel : selMatches node.labels = true)
    (hc : calculateTaints lookup dss node = .error e) :
    HandleNode selMatches lookup dss now node =
      .error ("error caluclating taints for node: " ++ e) := by
  rw [HandleNode, hsel, hc]
  rfl

/-- C8: if the pod lookup of any configured watch fails, the whole
calculation fails and the reconciliation returns an error; no node
object is ever produced alongside the error, so no taint change
computed before the failing lookup can be applied or persisted. -/
theorem lookup_error_atomic {selMatches : List (String × String) → Bool}
    {lookup : String → Daemonset → Except String (Option Pod)}
    {dss : List Daemonset} {now : String} {node : Node} {ds : Daemonset} {e : String}
    (hm : ds ∈ dss) (he : lookup node.name ds = .error e)
    (hsel : selMatches node.labels = true) :
    (∃ e1, calculateTaints lookup dss node = .error e1) ∧
      ∃ e2, HandleNode selMatches lookup dss now node = .error e2 := by
  obtain ⟨e1, h1⟩ := calcLoop_error_of_lookup hm he node.taints (managedKeySet node.taints) []
  refine ⟨⟨e1, calculateTaints_def_err h1⟩, ?_⟩
  exact ⟨_, HandleNode_err hsel (calculateTaints_def_err h1)⟩

/-- Witness for C8 with a lookup that always fails. -/
theorem lookup_error_atomic_witness :
    (∃ e1, calculateTaints (fun _ _ => .error "boom")
        [{ name := "agent", «namespace» := "kube-system" }]
        { name := "n1", labels := [], annotations := none, taints := [] } = .error e1) ∧
      ∃ e2, HandleNode (fun _ => true) (fun _ _ => .error "boom")
        [{ name := "agent", «namespace» := "kube-system" }] "t0"
        { name := "n1", labels := [], annotations := none, taints := [] } = .error e2 := by
  exact @lookup_error_atomic (fun _ => true) (fun _ _ => .error "boom")
    [{ name := "agent", «namespace» := "kube-system" }] "t0"
    { name := "n1", labels := [], annotations := none, taints := [] }
    { name := "agent", «namespace» := "kube-system" } "boom"
    (by decide) (by rfl) (by rfl)

/-! ## Claim C5: the milestone annotation is immutable -/

theorem HandleNode_skip {selMatches : List (String × String) → Bool}
    {lookup : String → Daemonset → Except String (Option Pod)}
    {dss : List Daemonset} {now : String} {node : Node}
    (hsel : selMatches node.labels = false) :
    HandleNode selMatches lookup dss now node = .ok none := by
  rw [HandleNode, hsel]
  rfl

theorem HandleNode_ok_case {selMatches : List (String × String) → Bool}
    {lookup : String → Daemonset → Except String (Option Pod)}
    {dss : List Daemonset} {now : String} {node nodeCopy : Node} {ch : TaintChanges}
    (hsel : selMatches node.labels = true)
    (hc : calculateTaints lookup dss node = .ok (nodeCopy, ch)) :
    HandleNode selMatches lookup dss now node =
      (if applyMilestone now nodeCopy = node then .ok none
       else .ok (some (applyMilestone now nodeCopy))) := by
  rw [HandleNode, hsel, hc]
  rfl

theorem annLookup_applyMilestone {nd : Node} {now v : String}
    (h : annLookup nd annotationFirstTimeReady = some v) :
    annLookup (applyMilestone now nd) annotationFirstTimeReady = some v := by
  obtain ⟨nm, lb, ann, ts⟩ := nd
  rcases ann with _ | anns
  · rw [annLookup] at h
    exact absurd h (by simp)
  · have hl : anns.lookup annotationFirstTimeReady = some v := by
      rw [annLookup] at h
      exact h
    rw [applyMilestone]
    by_cases htl : nodeTaintLess { name := nm, labels := lb, annotations := some anns, taints := ts } = true
    · rw [if_pos htl]
      show annLookup
        (if (anns.lookup annotationFirstTimeReady).isNone = true then
          { name := nm, labels := lb,
            annotations := some (anns ++ [(annotationFirstTimeReady, now)]), taints := ts }
         else { name := nm, labels := lb, annotations := some anns, taints := ts })
        annotationFirstTimeReady = some v
      rw [hl]
      simp only [Option.isNone_some, Bool.false_eq_true, if_false]
      exact h
    · rw [if_neg htl]
      exact h

/-- C5: if the first-time-ready milestone annotation is present on the
node before a reconciliation, then whatever `HandleNode` produces — no
write, or a node to persist — still carries the annotation with the
same value: the reconciliation never overwrites or deletes it. -/
theorem milestone_annotation_immutable
    {selMatches : List (String × String) → Bool}
    {lookup : String → Daemonset → Except String (Option Pod)}
    {dss : List Daemonset} {now : String} {node : Node} {v : String}
    {res : Option Node}
    (hann : annLookup node annotationFirstTimeReady = some v)
    (h : HandleNode selMatches lookup dss now node = .ok res) :
    annLookup (res.getD node) annotationFirstTimeReady = some v := by
  rcases hsel : selMatches node.labels with _ | _
  · rw [HandleNode_skip hsel] at h
    injection h with h
    subst h
    exact hann
  · rcases hcalc : calculateTaints lookup dss node with e | ⟨nodeCopy, ch⟩
    · rw [HandleNode_err hsel hcalc] at h
      exact absurd h (by simp)
    · obtain ⟨-, -, hannc, -, -, -⟩ := calculateTaints_spec hcalc
      have hannc' : annLookup nodeCopy annotationFirstTimeReady = some v := by
        rw [annLookup, hannc]
        rw [annLookup] at hann
        exact hann
      have hmil := @annLookup_applyMilestone nodeCopy now v hannc'
      rw [HandleNode_ok_case hsel hcalc] at h
      by_cases heq : applyMilestone now nodeCopy = node
      · rw [if_pos heq] at h
        injection h with h
        subst h
        exact hann
      · rw [if_neg heq] at h
        injection h with h
        subst h
        exact hmil

/-- Witness for C5: a node already annotated keeps the old timestamp. -/
theorem milestone_annotation_immutable_witness :
    annLookup ((Option.none).getD
        { name := "n1", labels := [],
          annotations := some [(annotationFirstTimeReady, "2019-01-01T00:00:00Z")],
          taints := [] }) annotationFirstTimeReady = some "2019-01-01T00:00:00Z" := by
  exact @milestone_annotation_immutable (fun _ => true) (fun _ _ => .ok none) [] "2020"
    { name := "n1", labels := [],
      annotations := some [(annotationFirstTimeReady, "2019-01-01T00:00:00Z")],
      taints := [] }
    "2019-01-01T00:00:00Z" none (by rfl) (by rfl)

/-! ## Claim C6: a ready watch leaves no taint behind -/

/-- A ready pod owned by a daemonset named `c`, for the C6 counterexample. -/
def c6Pod : Pod :=
  { nodeName := "n1",
    ownerReferences := [{ kind := "DaemonSet", name := "c" }],
    containerStatuses := [{ ready := true }] }

/-- Pod lookup of the C6 counterexample: the watch named `c` has a
ready pod, every other watch has none. -/
def c6Lookup : String → Daemonset → Except String (Option Pod) :=
  fun _ ds => if ds.name == "c" then .ok (some c6Pod) else .ok none

/-- The two colliding watches of the C6 counterexample: their canonical
taint keys are both `nidhogg.uswitch.com/a.b.c`. -/
def c6Watches : List Daemonset :=
  [{ name := "c", «namespace» := "a.b" }, { name := "b.c", «namespace» := "a" }]

/-- C6 counterexample: the watch `(name c, namespace a.b)` has a ready
pod, yet its canonical taint is present in the calculator's output
(and listed in `added`), introduced on behalf of the distinct watch
`(name b.c, namespace a)` whose pod is missing and whose canonical key
collides with it. -/
theorem ready_taint_present_cex :
    podReady c6Pod = true ∧
      c6Lookup "n1" { name := "c", «namespace» := "a.b" } = .ok (some c6Pod) ∧
      calculateTaints c6Lookup c6Watches
        { name := "n1", labels := [], annotations := none, taints := [] } =
        .ok ({ name := "n1", labels := [], annotations := none,
               taints := [newTaint "nidhogg.uswitch.com/a.b.c"] },
             { taintsAdded := ["nidhogg.uswitch.com/a.b.c"], taintsRemoved := [] }) ∧
      hasKey [newTaint "nidhogg.uswitch.com/a.b.c"]
        (dsTaint { name := "c", «namespace» := "a.b" }) = true := by
  exact ⟨rfl, rfl, rfl, by decide⟩

/-- C6 (amended): provided no two configured watches share the same
canonical taint key, a watch whose pod exists and is ready has its
canonical taint absent from the calculator's output, and the added list
never contains it (in particular when it was absent from the input). -/
theorem ready_watch_taint_absent
    {lookup : String → Daemonset → Except String (Option Pod)}
    {dss : List Daemonset} {node node' : Node} {ch : TaintChanges}
    {ds : Daemonset} {p : Pod}
    (hnd : (dss.map dsTaint).Nodup) (hm : ds ∈ dss)
    (hp : lookup node.name ds = .ok (some p)) (hr : podReady p = true)
    (h : calculateTaints lookup dss node = .ok (node', ch)) :
    hasKey node'.taints (dsTaint ds) = false ∧ dsTaint ds ∉ ch.taintsAdded := by
  obtain ⟨-, -, -, hts, hadd, -⟩ := calculateTaints_spec h
  have hnrds : dsNotReadyB (lookup node.name) ds = false := by
    rw [dsNotReadyB_of_ok hp]
    show (!readyVal (some p)) = false
    rw [show readyVal (some p) = podReady p from rfl, hr]
    rfl
  have hnk : dsTaint ds ∉ newKeysRec (lookup node.name) dss (managedKeySet node.taints) := by
    intro hmem
    obtain ⟨ds', hm', he', hn'⟩ := newKeysRec_witness hmem
    have : ds' = ds := List.inj_on_of_nodup_map hnd hm' hm he'
    rw [this, hnrds] at hn'
    exact absurd hn' (by simp)
  refine ⟨?_, by rw [hadd]; exact hnk⟩
  rw [hts, hasKey_removeAll, hasKey_append]
  rcases hk0 : hasKey node.taints (dsTaint ds) with _ | _
  · have hmapk : hasKey ((newKeysRec (lookup node.name) dss
        (managedKeySet node.taints)).map newTaint) (dsTaint ds) = false := by
      rcases hmk : hasKey ((newKeysRec (lookup node.name) dss
          (managedKeySet node.taints)).map newTaint) (dsTaint ds) with _ | _
      · rfl
      · exact absurd (hasKey_map_newTaint.mp hmk) hnk
    rw [hmapk]
    rfl
  · have hr0 : dsTaint ds ∈ managedKeySet node.taints :=
      mem_managedKeySet.mpr ⟨dsTaint_startsWith ds, hk0⟩
    have hkeep : dsTaint ds ∈ keepKeysRec (lookup node.name) dss (managedKeySet node.taints) := by
      apply mem_keepKeysRec.mpr
      refine ⟨hr0, ?_⟩
      intro ds' hm' he'
      have : ds' = ds := List.inj_on_of_nodup_map hnd hm' hm he'
      rw [this]
      exact hnrds
    rw [(contains_iff_mem _ _).mpr hkeep]
    simp

/-- A ready agent pod for the C6 witness. -/
def w6Pod : Pod :=
  { nodeName := "n1",
    ownerReferences := [{ kind := "DaemonSet", name := "agent" }],
    containerStatuses := [{ ready := true }] }

/-- Witness for C6: one ready watch on a node already carrying its
taint; the taint disappears and is not re-added. -/
theorem ready_watch_taint_absent_witness :
    hasKey ([] : List Taint) (dsTaint { name := "agent", «namespace» := "kube-system" }) = false ∧
      dsTaint { name := "agent", «namespace» := "kube-system" } ∉
        ({ taintsAdded := [],
           taintsRemoved := ["nidhogg.uswitch.com/kube-system.agent"] } : TaintChanges).taintsAdded := by
  have h := @ready_watch_taint_absent
    (fun _ _ => .ok (some w6Pod))
    [{ name := "agent", «namespace» := "kube-system" }]
    { name := "n1", labels := [], annotations := none,
      taints := [newTaint "nidhogg.uswitch.com/kube-system.agent"] }
    { name := "n1", labels := [], annotations := none, taints := [] }
    { taintsAdded := [], taintsRemoved := ["nidhogg.uswitch.com/kube-system.agent"] }
    { name := "agent", «namespace» := "kube-system" }
    w6Pod
    (by decide) (by decide) (by rfl) (by rfl) (by rfl)
  exact h

/-! ## Claim C7: a missing or not-ready watch keeps its taint -/

/-- The two colliding watches of the C7 counterexample, in the order
that makes the second one re-add an already present taint. -/
def c7Watches : List Daemonset :=
  [{ name := "b.c", «namespace» := "a" }, { name := "c", «namespace» := "a.b" }]

/-- C7 counterexample: the taint `nidhogg.uswitch.com/a.b.c` is already
present on the input node and the watch `(name c, namespace a.b)` has
no pod, yet the change record's added list contains that watch's
canonical taint, because the other colliding watch consumed the
pending-removal entry first. -/
theorem present_taint_readded_cex :
    hasKey [newTaint "nidhogg.uswitch.com/a.b.c"]
        (dsTaint { name := "c", «namespace» := "a.b" }) = true ∧
      calculateTaints (fun _ _ => .ok none) c7Watches
        { name := "n1", labels := [], annotations := none,
          taints := [newTaint "nidhogg.uswitch.com/a.b.c"] } =
        .ok ({ name := "n1", labels := [], annotations := none,
               taints := [newTaint "nidhogg.uswitch.com/a.b.c",
                 newTaint "nidhogg.uswitch.com/a.b.c"] },
             { taintsAdded := ["nidhogg.uswitch.com/a.b.c"], taintsRemoved := [] }) ∧
      dsTaint { name := "c", «namespace» := "a.b" } ∈ ["nidhogg.uswitch.com/a.b.c"] := by
  exact ⟨by decide, rfl, by decide⟩

/-- C7 (amended): provided no two configured watches share the same
canonical taint key, a watch whose pod is missing or not ready has its
canonical taint present in the calculator's output; and if that taint
was already present in the input, the added list does not contain it. -/
theorem notready_watch_taint_present
    {lookup : String → Daemonset → Except String (Option Pod)}
    {dss : List Daemonset} {node node' : Node} {ch : TaintChanges}
    {ds : Daemonset} {v : Option Pod}
    (hnd : (dss.map dsTaint).Nodup) (hm : ds ∈ dss)
    (hp : lookup node.name ds = .ok v) (hr : readyVal v = false)
    (h : calculateTaints lookup dss node = .ok (node', ch)) :
    hasKey node'.taints (dsTaint ds) = true ∧
      (hasKey node.taints (dsTaint ds) = true → dsTaint ds ∉ ch.taintsAdded) := by
  obtain ⟨-, -, -, hts, hadd, -⟩ := calculateTaints_spec h
  have hnrds : dsNotReadyB (lookup node.name) ds = true := by
    rw [dsNotReadyB_of_ok hp, hr]
    rfl
  have hnotkeep : dsTaint ds ∉ keepKeysRec (lookup node.name) dss (managedKeySet node.taints) := by
    intro hmem
    have := (mem_keepKeysRec.mp hmem).2 ds hm rfl
    rw [this] at hnrds
    exact absurd hnrds (by simp)
  constructor
  · rw [hts, hasKey_removeAll, hasKey_append]
    have hkeepc : (keepKeysRec (lookup node.name) dss
        (managedKeySet node.taints)).contains (dsTaint ds) = false := by
      rcases hc : (keepKeysRec (lookup node.name) dss
          (managedKeySet node.taints)).contains (dsTaint ds) with _ | _
      · rfl
      · exact absurd ((contains_iff_mem _ _).mp hc) hnotkeep
    rw [hkeepc]
    by_cases hr0 : dsTaint ds ∈ managedKeySet node.taints
    · rw [(mem_managedKeySet.mp hr0).2]
      rfl
    · have hnk : dsTaint ds ∈ newKeysRec (lookup node.name) dss (managedKeySet node.taints) :=
        mem_newKeysRec hnd hm hnrds hr0
      rw [hasKey_map_newTaint.mpr hnk]
      simp
  · intro hk0
    have hr0 : dsTaint ds ∈ managedKeySet node.taints :=
      mem_managedKeySet.mpr ⟨dsTaint_startsWith ds, hk0⟩
    rw [hadd]
    exact not_mem_newKeysRec hnd hr0

/-- Witness for C7: one watch whose pod is missing, on a node already
carrying the watch's taint; the taint stays and nothing is added. -/
theorem notready_watch_taint_present_witness :
    hasKey [newTaint "nidhogg.uswitch.com/kube-system.agent"]
        (dsTaint { name := "agent", «namespace» := "kube-system" }) = true ∧
      (hasKey [newTaint "nidhogg.uswitch.com/kube-system.agent"]
          (dsTaint { name := "agent", «namespace» := "kube-system" }) = true →
        dsTaint { name := "agent", «namespace» := "kube-system" } ∉
          ({ taintsAdded := [], taintsRemoved := [] } : TaintChanges).taintsAdded) := by
  have h := @notready_watch_taint_present
    (fun _ _ => .ok none)
    [{ name := "agent", «namespace» := "kube-system" }]
    { name := "n1", labels := [], annotations := none,
      taints := [newTaint "nidhogg.uswitch.com/kube-system.agent"] }
    { name := "n1", labels := [], annotations := none,
      taints := [newTaint "nidhogg.uswitch.com/kube-system.agent"] }
    { taintsAdded := [], taintsRemoved := [] }
    { name := "agent", «namespace» := "kube-system" }
    none
    (by decide) (by decide) (by rfl) (by rfl) (by rfl)
  exact h

/-! ## Claim C4: no duplicate managed keys -/

/-- Two identical watches, for the C4 counterexample. -/
def c4Watches : List Daemonset :=
  [{ name := "agent", «namespace» := "kube-system" },
   { name := "agent", «namespace» := "kube-system" }]

/-- C4 counterexample: with two watches sharing namespace and name and
no pod on the node, the calculator appends the same managed taint
twice, so the output carries two managed taints with the same key. -/
theorem managed_dup_key_cex :
    calculateTaints (fun _ _ => .ok none) c4Watches
        { name := "n1", labels := [], annotations := none, taints := [] } =
      .ok ({ name := "n1", labels := [], annotations := none,
             taints := [newTaint "nidhogg.uswitch.com/kube-system.agent",
               newTaint "nidhogg.uswitch.com/kube-system.agent"] },
           { taintsAdded := ["nidhogg.uswitch.com/kube-system.agent",
               "nidhogg.uswitch.com/kube-system.agent"], taintsRemoved := [] }) ∧
      ¬ ((managedOf [newTaint "nidhogg.uswitch.com/kube-system.agent",
          newTaint "nidhogg.uswitch.com/kube-system.agent"]).map Taint.key).Nodup := by
  exact ⟨rfl, by decide⟩

/-- C4 (amended): provided no two configured watches share the same
canonical taint key and the input node's managed taints carry pairwise
distinct keys, the calculator's output never contains two managed
taints with the same key. -/
theorem no_duplicate_managed_keys
    {lookup : String → Daemonset → Except String (Option Pod)}
    {dss : List Daemonset} {node node' : Node} {ch : TaintChanges}
    (hnd : (dss.map dsTaint).Nodup)
    (hin : ((managedOf node.taints).map Taint.key).Nodup)
    (h : calculateTaints lookup dss node = .ok (node', ch)) :
    ((managedOf node'.taints).map Taint.key).Nodup := by
  obtain ⟨-, -, -, hts, -, -⟩ := calculateTaints_spec h
  have hall : ∀ t ∈ (newKeysRec (lookup node.name) dss (managedKeySet node.taints)).map newTaint,
      strStartsWith t.key taintKey = true := by
    intro t ht
    obtain ⟨k, hk, rfl⟩ := List.mem_map.mp ht
    obtain ⟨ds, -, rfl, -⟩ := newKeysRec_witness hk
    exact dsTaint_startsWith ds
  have hbig : ((managedOf (node.taints ++
      (newKeysRec (lookup node.name) dss (managedKeySet node.taints)).map newTaint)).map
        Taint.key).Nodup := by
    unfold managedOf
    rw [List.filter_append, List.filter_eq_self.mpr hall, List.map_append]
    apply List.Nodup.append hin
    · rw [List.map_map]
      have hcomp : (Taint.key ∘ newTaint) = fun k => k := funext (fun k => rfl)
      rw [hcomp, List.map_id']
      exact nodup_newKeysRec _ hnd
    · intro k hk1 hk2
      obtain ⟨t, htm, rfl⟩ := List.mem_map.mp hk1
      obtain ⟨htm0, hpre⟩ := List.mem_filter.mp htm
      have hr0 : t.key ∈ managedKeySet node.taints :=
        mem_managedKeySet.mpr ⟨hpre, hasKey_iff.mpr ⟨t, htm0, rfl⟩⟩
      rw [List.map_map] at hk2
      have hcomp : (Taint.key ∘ newTaint) = fun k => k := funext (fun k => rfl)
      rw [hcomp, List.map_id'] at hk2
      exact not_mem_newKeysRec hnd hr0 hk2
  rw [hts, removeAll_eq_filter]
  have hsub : managedOf ((node.taints ++
        (newKeysRec (lookup node.name) dss (managedKeySet node.taints)).map newTaint).filter
          (fun t => !((keepKeysRec (lookup node.name) dss
            (managedKeySet node.taints)).contains t.key))) |>.Sublist
      (managedOf (node.taints ++
        (newKeysRec (lookup node.name) dss (managedKeySet node.taints)).map newTaint)) := by
    unfold managedOf
    exact List.Sublist.filter _ (List.filter_sublist _)
  exact ((hsub.map Taint.key).nodup hbig)

/-- Witness for C4 at a single watch with no pod on an empty node. -/
theorem no_duplicate_managed_keys_witness :
    ((managedOf [newTaint "nidhogg.uswitch.com/kube-system.agent"]).map Taint.key).Nodup := by
  have h := @no_duplicate_managed_keys
    (fun _ _ => .ok none)
    [{ name := "agent", «namespace» := "kube-system" }]
    { name := "n1", labels := [], annotations := none, taints := [] }
    { name := "n1", labels := [], annotations := none,
      taints := [newTaint "nidhogg.uswitch.com/kube-system.agent"] }
    { taintsAdded := ["nidhogg.uswitch.com/kube-system.agent"], taintsRemoved := [] }
    (by decide) (by decide) (by rfl)
  exact h

/-! ## Claim C1: idempotence of the calculation -/

/-- Two identical watches, for the C1 counterexample. -/
def c1Watches : List Daemonset :=
  [{ name := "agent", «namespace» := "kube-system" },
   { name := "agent", «namespace» := "kube-system" }]

/-- The node produced by the first run of the C1 counterexample. -/
def c1Node1 : Node :=
  { name := "n1", labels := [], annotations := none,
    taints := [newTaint "nidhogg.uswitch.com/kube-system.agent",
      newTaint "nidhogg.uswitch.com/kube-system.agent"] }

/-- C1 counterexample: with two watches sharing namespace and name, no
pod anywhere and an initially taint-free node, the second run on the
first run's output adds yet another copy of the taint: the change
record is not empty and the taint collection changes. -/
theorem calculateTaints_not_idempotent_cex :
    calculateTaints (fun _ _ => .ok none) c1Watches
        { name := "n1", labels := [], annotations := none, taints := [] } =
      .ok (c1Node1,
           { taintsAdded := ["nidhogg.uswitch.com/kube-system.agent",
               "nidhogg.uswitch.com/kube-system.agent"], taintsRemoved := [] }) ∧
      calculateTaints (fun _ _ => .ok none) c1Watches c1Node1 =
        .ok ({ name := "n1", labels := [], annotations := none,
               taints := [newTaint "nidhogg.uswitch.com/kube-system.agent",
                 newTaint "nidhogg.uswitch.com/kube-system.agent",
                 newTaint "nidhogg.uswitch.com/kube-system.agent"] },
             { taintsAdded := ["nidhogg.uswitch.com/kube-system.agent"],
               taintsRemoved := [] }) ∧
      ({ taintsAdded := ["nidhogg.uswitch.com/kube-system.agent"],
         taintsRemoved := [] } : TaintChanges) ≠
        { taintsAdded := [], taintsRemoved := [] } ∧
      [newTaint "nidhogg.uswitch.com/kube-system.agent",
        newTaint "nidhogg.uswitch.com/kube-system.agent",
        newTaint "nidhogg.uswitch.com/kube-system.agent"] ≠ c1Node1.taints := by
  exact ⟨rfl, rfl, by decide, by decide⟩

/-- C1 (amended): provided no two configured watches share the same
canonical taint key, the calculation is idempotent: running it again on
the node produced by a successful run, with the same pod lookup, yields
that very node and an empty change record. -/
theorem calculateTaints_idempotent
    {lookup : String → Daemonset → Except String (Option Pod)}
    {dss : List Daemonset} {node node1 : Node} {ch1 : TaintChanges}
    (hnd : (dss.map dsTaint).Nodup)
    (h : calculateTaints lookup dss node = .ok (node1, ch1)) :
    calculateTaints lookup dss node1 =
      .ok (node1, { taintsAdded := [], taintsRemoved := [] }) := by
  obtain ⟨hname, -, -, hts, -, -⟩ := calculateTaints_spec h
  have hlook : ∀ ds ∈ dss, ∃ v, lookup node.name ds = .ok v :=
    calculateTaints_ok_lookup h
  have hmem1 : ∀ k, k ∈ managedKeySet node1.taints ↔
      ∃ ds ∈ dss, dsTaint ds = k ∧ dsNotReadyB (lookup node.name) ds = true := by
    intro k
    rw [mem_managedKeySet]
    constructor
    · rintro ⟨hpre, hk⟩
      rw [hts, hasKey_removeAll, hasKey_append] at hk
      simp only [Bool.and_eq_true, Bool.or_eq_true] at hk
      obtain ⟨hor, hnc⟩ := hk
      rcases hor with hk0 | hkmap
      · have hr0 : k ∈ managedKeySet node.taints := mem_managedKeySet.mpr ⟨hpre, hk0⟩
        have hnkeep : k ∉ keepKeysRec (lookup node.name) dss (managedKeySet node.taints) := by
          intro hkeep
          rw [(contains_iff_mem _ _).mpr hkeep] at hnc
          exact absurd hnc (by simp)
        by_contra hnex
        push_neg at hnex
        apply hnkeep
        apply mem_keepKeysRec.mpr
        refine ⟨hr0, ?_⟩
        intro ds hm he
        rcases hb : dsNotReadyB (lookup node.name) ds with _ | _
        · rfl
        · exact absurd hb (hnex ds hm he)
      · obtain ⟨ds, hm, he, hnr⟩ := newKeysRec_witness (hasKey_map_newTaint.mp hkmap)
        exact ⟨ds, hm, he, hnr⟩
    · rintro ⟨ds, hm, rfl, hnr⟩
      refine ⟨dsTaint_startsWith ds, ?_⟩
      rw [hts, hasKey_removeAll, hasKey_append]
      have hnotkeep : dsTaint ds ∉
          keepKeysRec (lookup node.name) dss (managedKeySet node.taints) := by
        intro hkeep
        have := (mem_keepKeysRec.mp hkeep).2 ds hm rfl
        rw [this] at hnr
        exact absurd hnr (by simp)
      have hkc : (keepKeysRec (lookup node.name) dss
          (managedKeySet node.taints)).contains (dsTaint ds) = false := by
        rcases hc : (keepKeysRec (lookup node.name) dss
            (managedKeySet node.taints)).contains (dsTaint ds) with _ | _
        · rfl
        · exact absurd ((contains_iff_mem _ _).mp hc) hnotkeep
      rw [hkc]
      by_cases hr0 : dsTaint ds ∈ managedKeySet node.taints
      · rw [(mem_managedKeySet.mp hr0).2]
        rfl
      · rw [hasKey_map_newTaint.mpr (mem_newKeysRec hnd hm hnr hr0)]
        simp
  have hlook1 : ∀ ds ∈ dss, ∃ v, lookup node1.name ds = .ok v := by
    rw [hname]
    exact hlook
  obtain ⟨⟨ts2, r2, a2⟩, hcl2⟩ :=
    calcLoop_ok_of_lookup node1.taints (managedKeySet node1.taints) [] hlook1
  have hcl2' := hcl2
  rw [hname] at hcl2'
  obtain ⟨h1, h2, h3⟩ := calcLoop_characterize hcl2'
  have hnk2 : newKeysRec (lookup node.name) dss (managedKeySet node1.taints) = [] :=
    newKeysRec_eq_nil hnd (fun ds hm hnr => (hmem1 (dsTaint ds)).mpr ⟨ds, hm, rfl, hnr⟩)
  have hkeep2 : keepKeysRec (lookup node.name) dss (managedKeySet node1.taints) = [] :=
    keepKeysRec_eq_nil (fun k hk => (hmem1 k).mp hk)
  rw [hnk2] at h1 h3
  rw [hkeep2] at h2
  rw [List.map_nil, List.append_nil] at h1
  rw [List.nil_append] at h3
  subst h1; subst h2; subst h3
  rw [calculateTaints_def_ok hcl2]
  rfl

/-- Witness for C1: one watch with no pod; the second run of the
calculation on the first run's output changes nothing. -/
theorem calculateTaints_idempotent_witness :
    calculateTaints (fun _ _ => .ok none)
        [{ name := "agent", «namespace» := "kube-system" }]
        { name := "n1", labels := [], annotations := none,
          taints := [newTaint "nidhogg.uswitch.com/kube-system.agent"] } =
      .ok ({ name := "n1", labels := [], annotations := none,
             taints := [newTaint "nidhogg.uswitch.com/kube-system.agent"] },
           { taintsAdded := [], taintsRemoved := [] }) := by
  have h := @calculateTaints_idempotent
    (fun _ _ => .ok none)
    [{ name := "agent", «namespace» := "kube-system" }]
    { name := "n1", labels := [], annotations := none, taints := [] }
    { name := "n1", labels := [], annotations := none,
      taints := [newTaint "nidhogg.uswitch.com/kube-system.agent"] }
    { taintsAdded := ["nidhogg.uswitch.com/kube-system.agent"], taintsRemoved := [] }
    (by decide) (by rfl)
  exact h
